/-
Verification of the retrieval core of the auslegalsearch Oracle backend
(db/store_oracle.py and db/connector_oracle.py).

The Python functions are shallowly embedded as Lean definitions:
numeric scores are modelled by rationals (exact arithmetic), vector
components for the cosine-distance analysis by real numbers, nullable
fields by Option, Python dicts keyed by (doc_id, chunk_index) by
insertion-ordered association lists, and Python list slicing xs[:k]
(including negative k) by pySlice.  Fallible collaborator calls
(the vector / lexical sub-searches issued by search_hybrid) are
modelled with Except, mirroring Python exception propagation.
-/
import Mathlib

/-- A raw hit dictionary as produced by `search_vector` / `search_bm25`
(db/store_oracle.py): `doc_id`, nullable `chunk_index`, raw `score`,
`text`, `source`, `format`, nullable `chunk_metadata`. -/
structure RawHit where
  doc_id : Int
  chunk_index : Option Int
  score : ℚ
  text : String
  source : String
  fmt : String
  chunk_metadata : Option String
deriving DecidableEq

/-- A merged entry of `search_hybrid`'s `all_hits` mapping: the raw-hit
fields plus `vector_score`, `bm25_score`, `vector_score_norm` and
`hybrid_score` (lines 598-634 of store_oracle.py).  `vector_score_norm`
holds 0 until the normalization pass writes it, and `citation` is absent
(`none`) until the final loop attaches it. -/
structure ScoredHit where
  doc_id : Int
  chunk_index : Option Int
  score : ℚ
  text : String
  source : String
  fmt : String
  chunk_metadata : Option String
  vector_score : ℚ
  bm25_score : ℚ
  vector_score_norm : ℚ
  hybrid_score : ℚ
  citation : Option String
deriving DecidableEq

/-- Python list slice `xs[:k]`: for `0 ≤ k` the first `k` elements, for
negative `k` all but the last `-k` elements (clamped at the empty list,
matching Python's `max 0 (len + k)`). -/
def pySlice (k : Int) (xs : List α) : List α :=
  if 0 ≤ k then xs.take k.toNat else xs.take (xs.length - k.natAbs)

/-- The hit dictionary built for one row of `search_bm25`
(store_oracle.py lines 578-589): `chunk_index` is set to the integer 0,
`score` to 1.0, `chunk_metadata` to None. -/
def bm25Hit (id : Int) (content source f : String) : RawHit :=
  { doc_id := id
    chunk_index := some 0
    score := 1
    text := content
    source := source
    fmt := f
    chunk_metadata := none }

/-- `search_bm25`'s result list: the row-to-hit loop over the rows
returned by the LIKE query (the SQL execution itself is an external
collaborator). -/
def search_bm25_hits (rows : List (Int × String × String × String)) : List RawHit :=
  rows.map (fun r => bm25Hit r.1 r.2.1 r.2.2.1 r.2.2.2)

/-- The `search_area` tag of a full-text hit in `search_fts`. -/
inductive SearchArea where
  | documents
  | metadata
deriving DecidableEq

/-- A full-text hit dictionary as built in `search_fts`
(store_oracle.py lines 652-688). -/
structure FtsHit where
  doc_id : Int
  chunk_index : Option Int
  source : String
  content : String
  text : String
  fmt : Option String
  chunk_metadata : Option String
  search_area : SearchArea
  dedup_key : String × Int
deriving DecidableEq

/-- The document-area hit built for one row of `search_fts`
(lines 652-664): `chunk_index` is None, `search_area` "documents",
`dedup_key` ("doc", doc_id). -/
def ftsDocHit (id : Int) (source content : String) (f : String) : FtsHit :=
  { doc_id := id
    chunk_index := none
    source := source
    content := content
    text := content
    fmt := some f
    chunk_metadata := none
    search_area := SearchArea.documents
    dedup_key := ("doc", id) }

/-- The metadata-area hit built for one row of `search_fts`
(lines 676-688): `chunk_index` comes from the embeddings row (a
non-null integer column), `text` and `chunk_metadata` are both the
serialized metadata, `format` is None, `dedup_key` ("doc", doc_id). -/
def ftsMetaHit (id ci : Int) (source content meta : String) : FtsHit :=
  { doc_id := id
    chunk_index := some ci
    source := source
    content := content
    text := meta
    fmt := none
    chunk_metadata := some meta
    search_area := SearchArea.metadata
    dedup_key := ("doc", id) }

/-- Python `chunk_index or 999999` (line 698): `or` substitutes 999999
for every falsy value, i.e. for None and also for the integer 0. -/
def ciCoerce : Option Int → Int
  | none => 999999
  | some i => if i = 0 then 999999 else i

/-- One step of the dedup loop of `search_fts` (lines 692-699) for an
incoming hit `h`: walk the insertion-ordered grouping; at the first
entry with the same `dedup_key`, replace it by `h` exactly when both
hits are metadata-area and `h`'s coerced chunk index is strictly
smaller; if no entry matches, append `h` (dict insertion at the end). -/
def dedupIns (h : FtsHit) : List FtsHit → List FtsHit
  | [] => [h]
  | x :: xs =>
    if x.dedup_key = h.dedup_key then
      (if h.search_area = SearchArea.metadata ∧ x.search_area = SearchArea.metadata ∧
          ciCoerce h.chunk_index < ciCoerce x.chunk_index then h else x) :: xs
    else
      x :: dedupIns h xs

/-- The full dedup reduction of `search_fts` (lines 691-699): fold the
hit list into the `grouped` mapping in order. -/
def dedupFts (hits : List FtsHit) : List FtsHit :=
  hits.foldl (fun g h => dedupIns h g) []

/-- The `mode` parameter of `search_fts`. -/
inductive FtsMode where
  | documents
  | metadata
  | both
deriving DecidableEq

/-- `search_fts` (store_oracle.py lines 636-700) with the two SQL row
sets supplied by the storage collaborator: build `all_hits` from the
document rows (when mode is documents/both) followed by the metadata
rows (when mode is metadata/both), dedup, and truncate with
`[:top_k]`. -/
def search_fts_model (mode : FtsMode) (top_k : Int)
    (docRows : List (Int × String × String × String))
    (metaRows : List (Int × Int × String × String × String)) : List FtsHit :=
  let docHits := if mode = FtsMode.documents ∨ mode = FtsMode.both then
      docRows.map (fun r => ftsDocHit r.1 r.2.1 r.2.2.1 r.2.2.2) else []
  let metaHits := if mode = FtsMode.metadata ∨ mode = FtsMode.both then
      metaRows.map (fun r => ftsMetaHit r.1 r.2.1 r.2.2.1 r.2.2.2.1 r.2.2.2.2) else []
  pySlice top_k (dedupFts (docHits ++ metaHits))

/-- The wire value handed to the Oracle driver by the `Vector` column
type of db/connector_oracle.py: either SQL NULL (`none`) or a dense
textual literal, represented by its component sequence (`some l`
stands for the string of the components of `l` between square
brackets; `some []` is the empty-vector literal). -/
def vectorBindProcess : Option (List ℚ) → Option (List ℚ)
  | none => none
  | some v => some v

/-- `Vector.result_processor` (connector_oracle.py lines 201-203):
returns the value unchanged. -/
def vectorResultProcess : Option (List ℚ) → Option (List ℚ) :=
  fun v => v

/-
`vectorBindProcess` models `Vector.bind_processor` (connector_oracle.py
lines 181-199) on the input domain of claim C7: Python None and
list-like sequences of real numbers.  On that domain the source's try
block never raises (every component is a number, so `float(x)`
succeeds), hence the string pass-through and the `"[]"` fallback of
lines 194-198 are unreachable and the literal is determined by the
component sequence alone.
-/

/-- The composite dict key `(doc_id, chunk_index)` of a merged entry. -/
def hkey (e : ScoredHit) : Int × Option Int :=
  (e.doc_id, e.chunk_index)

/-- The merged entry seeded from a vector hit (store_oracle.py lines
600-606): spread of the raw hit plus `vector_score := score`,
`bm25_score := 0.0`, `hybrid_score := 0.0`. -/
def entryOfVector (h : RawHit) : ScoredHit :=
  { doc_id := h.doc_id
    chunk_index := h.chunk_index
    score := h.score
    text := h.text
    source := h.source
    fmt := h.fmt
    chunk_metadata := h.chunk_metadata
    vector_score := h.score
    bm25_score := 0
    vector_score_norm := 0
    hybrid_score := 0
    citation := none }

/-- The merged entry inserted for a lexical hit whose key is new
(lines 611-617): spread of the raw hit plus `vector_score := 0.0`,
`bm25_score := 1.0`, `hybrid_score := 0.0`. -/
def entryOfBm25 (h : RawHit) : ScoredHit :=
  { doc_id := h.doc_id
    chunk_index := h.chunk_index
    score := h.score
    text := h.text
    source := h.source
    fmt := h.fmt
    chunk_metadata := h.chunk_metadata
    vector_score := 0
    bm25_score := 1
    vector_score_norm := 0
    hybrid_score := 0
    citation := none }

/-- `all_hits[key] = {...}` for a vector hit (line 601): if the key is
already present replace the entry in place, otherwise append at the
end (Python dict insertion order). -/
def addVecHit (h : RawHit) : List ScoredHit → List ScoredHit
  | [] => [entryOfVector h]
  | x :: xs =>
    if hkey x = (h.doc_id, h.chunk_index) then entryOfVector h :: xs
    else x :: addVecHit h xs

/-- The lexical-hit step (lines 607-617): if the key is present set the
existing entry's `bm25_score` to 1.0 in place, otherwise append a new
lexical-only entry at the end. -/
def addBm25Hit (h : RawHit) : List ScoredHit → List ScoredHit
  | [] => [entryOfBm25 h]
  | x :: xs =>
    if hkey x = (h.doc_id, h.chunk_index) then { x with bm25_score := 1 } :: xs
    else x :: addBm25Hit h xs

/-- The `all_hits` mapping after both merge loops (lines 598-617), in
dict insertion order. -/
def mergeHits (vector_hits bm25_hits : List RawHit) : List ScoredHit :=
  bm25_hits.foldl (fun m h => addBm25Hit h m)
    (vector_hits.foldl (fun m h => addVecHit h m) [])

/-- Python `min(scores)` for a non-empty list (the [] case is never
reached behind the `if scores:` guard). -/
def listMin : List ℚ → ℚ
  | [] => 0
  | h :: t => t.foldl min h

/-- Python `max(scores)` for a non-empty list. -/
def listMax : List ℚ → ℚ
  | [] => 0
  | h :: t => t.foldl max h

/-- The per-entry body of the normalization loop (lines 621-625):
write `vector_score_norm = 1 - (vector_score - min)/(max - min)` when
`max != min`, else `1.0`. -/
def normEntry (minv maxv : ℚ) (v : ScoredHit) : ScoredHit :=
  if maxv ≠ minv then
    { v with vector_score_norm := 1 - ((v.vector_score - minv) / (maxv - minv)) }
  else
    { v with vector_score_norm := 1 }

/-- The min-max normalization pass of `search_hybrid` (lines 618-628):
collect the `vector_score` values; if any, run the per-entry
normalization over every entry; with no scores, write `0.0` into every
entry (vacuous, since then there are no entries). -/
def applyNorm (m : List ScoredHit) : List ScoredHit :=
  let scores := m.map (fun v => v.vector_score)
  if scores = [] then
    m.map (fun v => { v with vector_score_norm := 0 })
  else
    m.map (normEntry (listMin scores) (listMax scores))

/-- The per-entry body of the composite-score loop (line 630):
`hybrid_score = alpha * vector_score_norm + (1 - alpha) * bm25_score`. -/
def hybridEntry (alpha : ℚ) (v : ScoredHit) : ScoredHit :=
  { v with hybrid_score := alpha * v.vector_score_norm + (1 - alpha) * v.bm25_score }

/-- The composite-score pass of `search_hybrid` (lines 629-630). -/
def applyHybrid (alpha : ℚ) (m : List ScoredHit) : List ScoredHit :=
  m.map (hybridEntry alpha)

/-- Stable insertion of an entry into a list sorted descending by
`hybrid_score`: the entry goes in front of the first element whose
score it reaches, so among equal scores earlier entries stay first. -/
def insertDesc (e : ScoredHit) : List ScoredHit → List ScoredHit
  | [] => [e]
  | x :: xs =>
    if x.hybrid_score ≤ e.hybrid_score then e :: x :: xs
    else x :: insertDesc e xs

/-- `sorted(all_hits.values(), key=lambda x: x["hybrid_score"],
reverse=True)` (line 631): Python's sort is stable, modelled by stable
insertion sort in descending score order. -/
def sortDesc : List ScoredHit → List ScoredHit
  | [] => []
  | x :: xs => insertDesc x (sortDesc xs)

/-- The citation string attached to each surviving result (line 633):
`f'{source}#chunk{chunk_index}'`, where a None chunk index would print
as "None" (never the case on this path: vector hits carry the
embeddings row's integer index and bm25 hits carry 0). -/
def citeOf (e : ScoredHit) : String :=
  e.source ++ "#chunk" ++
    (match e.chunk_index with
     | some i => toString i
     | none => "None")

/-- The pure merge/rank core of `search_hybrid` (store_oracle.py lines
598-634), applied to the two sub-search result lists: merge by key,
normalize, weight, sort descending (stable), truncate with
`[:top_k]`, attach citations. -/
def search_hybrid_core (vector_hits bm25_hits : List RawHit) (alpha : ℚ)
    (top_k : Int) : List ScoredHit :=
  (pySlice top_k (sortDesc (applyHybrid alpha (applyNorm (mergeHits vector_hits bm25_hits))))).map
    (fun r => { r with citation := some (citeOf r) })

/-- `search_hybrid` (lines 591-634) with its two collaborator calls
made explicit: the function first runs the vector sub-search, then the
lexical sub-search, then the merge; a Python exception in either
sub-search propagates to the caller (there is no try/except in the
source), modelled by Except.  The embedding-collaborator call and the
`top_k*2` sub-query limits live inside the collaborator arguments. -/
def searchHybridE (vres bres : Except String (List RawHit)) (alpha : ℚ)
    (top_k : Int) : Except String (List ScoredHit) :=
  match vres with
  | Except.error e => Except.error e
  | Except.ok v =>
    match bres with
    | Except.error e => Except.error e
    | Except.ok b => Except.ok (search_hybrid_core v b alpha top_k)

/-- `_cosine_distance` (store_oracle.py lines 498-514) under exact real
arithmetic (the Lean name drops the leading underscore).  Python falsy
lists (`not a or not b`) are the empty ones; the loop over
`range(min(len(a), len(b)))` accumulates `dot`, `na`, `nb`; `x ** 0.5`
on the non-negative sums is the real square root.  The function is
total: every input yields a value, no exception path exists. -/
noncomputable def cosine_distance (a b : List ℝ) : ℝ :=
  if a = [] ∨ b = [] then 1
  else
    let n := min a.length b.length
    let dot := ∑ i ∈ Finset.range n, a.getD i 0 * b.getD i 0
    let na := ∑ i ∈ Finset.range n, a.getD i 0 * a.getD i 0
    let nb := ∑ i ∈ Finset.range n, b.getD i 0 * b.getD i 0
    if na ≤ 0 ∨ nb ≤ 0 then 1
    else 1 - dot / (Real.sqrt na * Real.sqrt nb)

theorem insertDesc_perm (e : ScoredHit) (l : List ScoredHit) :
    List.Perm (insertDesc e l) (e :: l) := by
  induction l with
  | nil => exact List.Perm.refl _
  | cons x xs ih =>
    unfold insertDesc
    split
    · exact List.Perm.refl _
    · exact (List.Perm.cons x ih).trans (List.Perm.swap e x xs)

theorem sortDesc_perm (l : List ScoredHit) : List.Perm (sortDesc l) l := by
  induction l with
  | nil => exact List.Perm.refl _
  | cons x xs ih => exact (insertDesc_perm x (sortDesc xs)).trans (List.Perm.cons x ih)

theorem mem_insertDesc {y e : ScoredHit} {l : List ScoredHit} :
    y ∈ insertDesc e l ↔ y = e ∨ y ∈ l := by
  rw [(insertDesc_perm e l).mem_iff, List.mem_cons]

theorem pairwise_insertDesc (e : ScoredHit) {l : List ScoredHit}
    (hl : l.Pairwise (fun a b => b.hybrid_score ≤ a.hybrid_score)) :
    (insertDesc e l).Pairwise (fun a b => b.hybrid_score ≤ a.hybrid_score) := by
  induction l with
  | nil => exact List.pairwise_singleton _ _
  | cons x xs ih =>
    obtain ⟨hx, hxs⟩ := List.pairwise_cons.1 hl
    unfold insertDesc
    split
    · rename_i hc
      refine List.pairwise_cons.2 ⟨?_, hl⟩
      intro y hy
      rcases List.mem_cons.1 hy with rfl | hy
      · exact hc
      · exact le_trans (hx y hy) hc
    · rename_i hc
      refine List.pairwise_cons.2 ⟨?_, ih hxs⟩
      intro y hy
      rcases mem_insertDesc.1 hy with rfl | hy
      · exact le_of_not_le hc
      · exact hx y hy

theorem sortDesc_pairwise (l : List ScoredHit) :
    (sortDesc l).Pairwise (fun a b => b.hybrid_score ≤ a.hybrid_score) := by
  induction l with
  | nil => exact List.Pairwise.nil
  | cons x xs ih => exact pairwise_insertDesc x ih

theorem filter_insertDesc (q : ℚ) (e : ScoredHit) (l : List ScoredHit) :
    (insertDesc e l).filter (fun x => decide (x.hybrid_score = q))
      = if e.hybrid_score = q
          then e :: l.filter (fun x => decide (x.hybrid_score = q))
          else l.filter (fun x => decide (x.hybrid_score = q)) := by
  induction l with
  | nil =>
    by_cases he : e.hybrid_score = q <;> simp [insertDesc, he]
  | cons x xs ih =>
    unfold insertDesc
    split
    · rename_i hc
      by_cases he : e.hybrid_score = q <;> simp [List.filter_cons, he]
    · rename_i hc
      by_cases he : e.hybrid_score = q
      · have hxq : ¬ x.hybrid_score = q := by
          intro hx
          exact hc (le_of_eq (hx.trans he.symm))
        simp [List.filter_cons, hxq, ih, he]
      · by_cases hx : x.hybrid_score = q <;> simp [List.filter_cons, hx, ih, he]

theorem filter_sortDesc (q : ℚ) (l : List ScoredHit) :
    (sortDesc l).filter (fun x => decide (x.hybrid_score = q))
      = l.filter (fun x => decide (x.hybrid_score = q)) := by
  induction l with
  | nil => rfl
  | cons x xs ih =>
    show (insertDesc x (sortDesc xs)).filter _ = _
    rw [filter_insertDesc]
    by_cases hx : x.hybrid_score = q <;> simp [List.filter_cons, hx, ih]

theorem mem_addVecHit {y : ScoredHit} {h : RawHit} {l : List ScoredHit} :
    y ∈ addVecHit h l → y = entryOfVector h ∨ y ∈ l := by
  induction l with
  | nil =>
    intro hy
    exact Or.inl (List.mem_singleton.1 hy)
  | cons x xs ih =>
    unfold addVecHit
    split
    · intro hy
      rcases List.mem_cons.1 hy with rfl | hy
      · exact Or.inl rfl
      · exact Or.inr (List.mem_cons_of_mem _ hy)
    · intro hy
      rcases List.mem_cons.1 hy with rfl | hy
      · exact Or.inr (List.mem_cons_self _ _)
      · rcases ih hy with h1 | h1
        · exact Or.inl h1
        · exact Or.inr (List.mem_cons_of_mem _ h1)

theorem pairwise_addVecHit (h : RawHit) {l : List ScoredHit}
    (hl : l.Pairwise (fun a b => hkey a ≠ hkey b)) :
    (addVecHit h l).Pairwise (fun a b => hkey a ≠ hkey b) := by
  induction l with
  | nil => exact List.pairwise_singleton _ _
  | cons x xs ih =>
    obtain ⟨hx, hxs⟩ := List.pairwise_cons.1 hl
    unfold addVecHit
    split
    · rename_i hc
      refine List.pairwise_cons.2 ⟨?_, hxs⟩
      intro y hy
      show hkey (entryOfVector h) ≠ hkey y
      have : hkey (entryOfVector h) = (h.doc_id, h.chunk_index) := rfl
      rw [this, ← hc]
      exact hx y hy
    · rename_i hc
      refine List.pairwise_cons.2 ⟨?_, ih hxs⟩
      intro y hy
      rcases mem_addVecHit hy with rfl | hy
      · show hkey x ≠ hkey (entryOfVector h)
        exact hc
      · exact hx y hy

theorem mem_addBm25Hit_key {y : ScoredHit} {h : RawHit} {l : List ScoredHit} :
    y ∈ addBm25Hit h l →
      hkey y = (h.doc_id, h.chunk_index) ∨ ∃ x ∈ l, hkey y = hkey x := by
  induction l with
  | nil =>
    intro hy
    rw [List.mem_singleton.1 hy]
    exact Or.inl rfl
  | cons x xs ih =>
    unfold addBm25Hit
    split
    · intro hy
      rcases List.mem_cons.1 hy with rfl | hy
      · exact Or.inr ⟨_, List.mem_cons_self _ _, rfl⟩
      · exact Or.inr ⟨y, List.mem_cons_of_mem _ hy, rfl⟩
    · intro hy
      rcases List.mem_cons.1 hy with rfl | hy
      · exact Or.inr ⟨y, List.mem_cons_self _ _, rfl⟩
      · rcases ih hy with h1 | ⟨x', hx', e⟩
        · exact Or.inl h1
        · exact Or.inr ⟨x', List.mem_cons_of_mem _ hx', e⟩

theorem pairwise_addBm25Hit (h : RawHit) {l : List ScoredHit}
    (hl : l.Pairwise (fun a b => hkey a ≠ hkey b)) :
    (addBm25Hit h l).Pairwise (fun a b => hkey a ≠ hkey b) := by
  induction l with
  | nil => exact List.pairwise_singleton _ _
  | cons x xs ih =>
    obtain ⟨hx, hxs⟩ := List.pairwise_cons.1 hl
    unfold addBm25Hit
    split
    · refine List.pairwise_cons.2 ⟨?_, hxs⟩
      intro y hy
      show hkey { x with bm25_score := 1 } ≠ hkey y
      exact hx y hy
    · rename_i hc
      refine List.pairwise_cons.2 ⟨?_, ih hxs⟩
      intro y hy
      rcases mem_addBm25Hit_key hy with h1 | ⟨x', hx', e⟩
      · intro contra
        exact hc (contra.trans h1)
      · intro contra
        exact hx x' hx' (contra.trans e)

theorem pairwise_foldl_addVecHit (hits : List RawHit) (m : List ScoredHit)
    (hm : m.Pairwise (fun a b => hkey a ≠ hkey b)) :
    (hits.foldl (fun m h => addVecHit h m) m).Pairwise (fun a b => hkey a ≠ hkey b) := by
  induction hits generalizing m with
  | nil => exact hm
  | cons h t ih => exact ih (addVecHit h m) (pairwise_addVecHit h hm)

theorem pairwise_foldl_addBm25Hit (hits : List RawHit) (m : List ScoredHit)
    (hm : m.Pairwise (fun a b => hkey a ≠ hkey b)) :
    (hits.foldl (fun m h => addBm25Hit h m) m).Pairwise (fun a b => hkey a ≠ hkey b) := by
  induction hits generalizing m with
  | nil => exact hm
  | cons h t ih => exact ih (addBm25Hit h m) (pairwise_addBm25Hit h hm)

theorem pairwise_mergeHits (v b : List RawHit) :
    (mergeHits v b).Pairwise (fun a b => hkey a ≠ hkey b) :=
  pairwise_foldl_addBm25Hit b _ (pairwise_foldl_addVecHit v [] List.Pairwise.nil)

theorem hkey_normEntry (minv maxv : ℚ) (v : ScoredHit) :
    hkey (normEntry minv maxv v) = hkey v := by
  unfold normEntry
  split <;> rfl

theorem hkey_hybridEntry (alpha : ℚ) (v : ScoredHit) :
    hkey (hybridEntry alpha v) = hkey v := rfl

theorem pairwise_applyNorm {m : List ScoredHit}
    (hm : m.Pairwise (fun a b => hkey a ≠ hkey b)) :
    (applyNorm m).Pairwise (fun a b => hkey a ≠ hkey b) := by
  simp only [applyNorm]
  split
  · exact List.pairwise_map.2 (hm.imp (fun hab => hab))
  · refine List.pairwise_map.2 (hm.imp ?_)
    intro a b hab
    rw [hkey_normEntry, hkey_normEntry]
    exact hab

theorem pairwise_applyHybrid (alpha : ℚ) {m : List ScoredHit}
    (hm : m.Pairwise (fun a b => hkey a ≠ hkey b)) :
    (applyHybrid alpha m).Pairwise (fun a b => hkey a ≠ hkey b) :=
  List.pairwise_map.2 (hm.imp (fun hab => hab))

theorem pairwise_pySlice {R : α → α → Prop} (k : Int) {l : List α}
    (hl : l.Pairwise R) : (pySlice k l).Pairwise R := by
  unfold pySlice
  split <;> exact List.Pairwise.sublist (List.take_sublist _ _) hl

theorem foldl_min_le_init (t : List ℚ) (a : ℚ) : t.foldl min a ≤ a := by
  induction t generalizing a with
  | nil => exact le_refl a
  | cons h t ih => exact le_trans (ih (min a h)) (min_le_left a h)

theorem foldl_min_le_mem (t : List ℚ) (a s : ℚ) (hs : s ∈ t) : t.foldl min a ≤ s := by
  induction t generalizing a with
  | nil => cases hs
  | cons h t ih =>
    rcases List.mem_cons.1 hs with rfl | hs
    · exact le_trans (foldl_min_le_init t (min a s)) (min_le_right a s)
    · exact ih (min a h) hs

theorem listMin_le {l : List ℚ} {s : ℚ} (hs : s ∈ l) : listMin l ≤ s := by
  cases l with
  | nil => cases hs
  | cons h t =>
    rcases List.mem_cons.1 hs with rfl | hs
    · exact foldl_min_le_init t s
    · exact foldl_min_le_mem t h s hs

theorem init_le_foldl_max (t : List ℚ) (a : ℚ) : a ≤ t.foldl max a := by
  induction t generalizing a with
  | nil => exact le_refl a
  | cons h t ih => exact le_trans (le_max_left a h) (ih (max a h))

theorem mem_le_foldl_max (t : List ℚ) (a s : ℚ) (hs : s ∈ t) : s ≤ t.foldl max a := by
  induction t generalizing a with
  | nil => cases hs
  | cons h t ih =>
    rcases List.mem_cons.1 hs with rfl | hs
    · exact le_trans (le_max_right a s) (init_le_foldl_max t (max a s))
    · exact ih (max a h) hs

theorem le_listMax {l : List ℚ} {s : ℚ} (hs : s ∈ l) : s ≤ listMax l := by
  cases l with
  | nil => cases hs
  | cons h t =>
    rcases List.mem_cons.1 hs with rfl | hs
    · exact init_le_foldl_max t s
    · exact mem_le_foldl_max t h s hs

theorem length_pySlice_le (k : Int) (l : List α) (hk : 0 ≤ k) :
    (pySlice k l).length ≤ k.toNat := by
  unfold pySlice
  rw [if_pos hk, List.length_take]
  exact min_le_left _ _

/-- Example vector hit: document 1, chunk 0, raw distance 0.1. -/
def vhA : RawHit :=
  { doc_id := 1, chunk_index := some 0, score := 1/10, text := "t1", source := "s1",
    fmt := "txt", chunk_metadata := none }

/-- Example vector hit: document 2, chunk 0, raw distance 0.5. -/
def vhB : RawHit :=
  { doc_id := 2, chunk_index := some 0, score := 1/2, text := "t2", source := "s2",
    fmt := "txt", chunk_metadata := none }

/-- C1: evaluation of the `search_fts` dedup at the failing input.  Two
metadata hits for document 7 with chunk indexes 0 and 1 reduce to the
chunk-1 entry, because Python's `chunk_index or 999999` coerces the
falsy index 0 to the 999999 sentinel — diverging from the claimed rule
(and from the source's own comment "keep first/lowest chunk_index"),
under which the chunk-0 hit must win.  With indexes 3 and 1 the claimed
behavior is observed (the chunk-1 entry wins). -/
theorem c1_dedup_chunk_zero_divergence :
    dedupFts [ftsMetaHit 7 0 "src" "content" "meta", ftsMetaHit 7 1 "src" "content" "meta"]
        = [ftsMetaHit 7 1 "src" "content" "meta"] ∧
    dedupFts [ftsMetaHit 7 3 "src" "content" "meta", ftsMetaHit 7 1 "src" "content" "meta"]
        = [ftsMetaHit 7 1 "src" "content" "meta"] :=
  ⟨by decide, by decide⟩

/-- C2 counterexample: a failed vector sub-search does not degrade to a
lexical-only ranking — `search_hybrid` has no try/except around the
sub-searches, so the failure propagates to the caller; and failure of
both sides propagates the vector-side failure instead of yielding an
empty ranked list. -/
theorem c2_counterexample :
    searchHybridE (Except.error "vector search failed")
        (Except.ok [bm25Hit 1 "doc text" "src" "txt"]) (1/2) 5
      = Except.error "vector search failed" ∧
    searchHybridE (Except.error "vector search failed")
        (Except.error "lexical search failed") (1/2) 5
      = Except.error "vector search failed" :=
  ⟨rfl, rfl⟩

/-- C2 amended: a failure of either sub-search propagates to the caller
as an error (a vector-side failure is raised before the lexical search
is consulted); the merge runs exactly when both sub-searches
succeed. -/
theorem c2_failure_propagation :
    (∀ (e : String) (bres : Except String (List RawHit)) (alpha : ℚ) (k : Int),
        searchHybridE (Except.error e) bres alpha k = Except.error e) ∧
    (∀ (v : List RawHit) (e : String) (alpha : ℚ) (k : Int),
        searchHybridE (Except.ok v) (Except.error e) alpha k = Except.error e) ∧
    (∀ (v b : List RawHit) (alpha : ℚ) (k : Int),
        searchHybridE (Except.ok v) (Except.ok b) alpha k
          = Except.ok (search_hybrid_core v b alpha k)) :=
  ⟨fun _ _ _ _ => rfl, fun _ _ _ _ => rfl, fun _ _ _ _ => rfl⟩

/-- C3 counterexample: a call with alpha = 2 (outside [0,1]) and
non-positive top_k is not rejected: with both sub-searches succeeding
the call returns an ordinary ok result, the out-of-range alpha is used
as given (producing the out-of-range hybrid score 2), and a sub-search
failure still surfaces under invalid parameters — i.e. the sub-queries
were issued, so nothing is rejected before I/O. -/
theorem c3_counterexample :
    searchHybridE (Except.ok [vhA]) (Except.ok []) 2 0 = Except.ok [] ∧
    (search_hybrid_core [vhA] [] 2 5).map (fun e => e.hybrid_score) = [2] ∧
    searchHybridE (Except.error "storage failure surfaced") (Except.ok []) 2 (-1)
      = Except.error "storage failure surfaced" := by
  refine ⟨?_, ?_, rfl⟩
  · show Except.ok (search_hybrid_core [vhA] [] 2 0) = Except.ok []
    norm_num [search_hybrid_core, mergeHits, addVecHit, entryOfVector, hkey, applyNorm,
      normEntry, listMin, listMax, applyHybrid, hybridEntry, sortDesc, insertDesc,
      pySlice, vhA]
  · norm_num [search_hybrid_core, mergeHits, addVecHit, entryOfVector, hkey, applyNorm,
      normEntry, listMin, listMax, applyHybrid, hybridEntry, sortDesc, insertDesc,
      pySlice, citeOf, vhA]

/-- C3 amended: `search_hybrid` performs no parameter validation — for
every alpha and every top_k, a call whose sub-searches succeed returns
an ordinary ok result (there is no InvalidParameter rejection;
out-of-range alpha flows into the weighted score and non-positive
top_k merely truncates via Python slice semantics). -/
theorem c3_no_parameter_validation :
    ∀ (v b : List RawHit) (alpha : ℚ) (k : Int),
      ∃ r, searchHybridE (Except.ok v) (Except.ok b) alpha k = Except.ok r :=
  fun v b alpha k => ⟨search_hybrid_core v b alpha k, rfl⟩

/-- C7 counterexample: a Python None vector does not encode to the
explicit empty-vector wire form — `bind_processor` returns None
(SQL NULL) for it, which is not the empty dense literal. -/
theorem c7_counterexample :
    vectorBindProcess none = none ∧ vectorBindProcess none ≠ some [] := by
  exact ⟨rfl, by simp [vectorBindProcess]⟩

/-- C7 amended: a None input passes through as None (SQL NULL) rather
than raising; an empty vector encodes to the explicit empty dense
literal; and every vector of real numbers encodes to the dense literal
of its components, which round-trips through the identity
`result_processor` elementwise exactly (in particular within 32-bit
tolerance). -/
theorem c7_codec_roundtrip :
    vectorBindProcess none = none ∧
    vectorBindProcess (some []) = some [] ∧
    (∀ v : List ℚ, vectorBindProcess (some v) = some v ∧
        vectorResultProcess (vectorBindProcess (some v)) = some v) :=
  ⟨rfl, rfl, fun _ => ⟨rfl, rfl⟩⟩

/-- C8 counterexample: the whole-document hits of `search_bm25` do not
carry a null chunk_index — the source sets `chunk_index` to the
integer 0 for them. -/
theorem c8_counterexample :
    (bm25Hit 7 "contract law" "corpus/a.txt" "txt").chunk_index = some 0 ∧
    (some 0 : Option Int) ≠ none := by
  exact ⟨rfl, by simp⟩

/-- C8 amended: document-area hits of `search_fts` carry a null
chunk_index; the whole-document hits of `search_bm25` instead carry
chunk_index 0; metadata-area hits carry the embeddings row's chunk
index. -/
theorem c8_whole_document_chunk_index :
    (∀ (id : Int) (source content f : String),
        (ftsDocHit id source content f).chunk_index = none) ∧
    (∀ (id : Int) (content source f : String),
        (bm25Hit id content source f).chunk_index = some 0) ∧
    (∀ (id ci : Int) (source content meta : String),
        (ftsMetaHit id ci source content meta).chunk_index = some ci) :=
  ⟨fun _ _ _ _ => rfl, fun _ _ _ _ => rfl, fun _ _ _ _ _ => rfl⟩

/-- C9: in the final merged and ranked list returned by the hybrid
merge no two entries share the composite key
`(document_id, chunk_index)`, for every pair of input hit lists, every
alpha and every top_k. -/
theorem c9_result_keys_unique (v b : List RawHit) (alpha : ℚ) (top_k : Int) :
    (search_hybrid_core v b alpha top_k).Pairwise
      (fun x y => (x.doc_id, x.chunk_index) ≠ (y.doc_id, y.chunk_index)) := by
  have h3 := pairwise_applyHybrid alpha (pairwise_applyNorm (pairwise_mergeHits v b))
  have h4 := h3.perm (sortDesc_perm _).symm (fun hab => hab.symm)
  have h5 := pairwise_pySlice top_k h4
  exact List.pairwise_map.2 (h5.imp (fun hab => hab))

/-- C4: the hybrid merge on vector hits [(1,0,0.1), (2,0,0.5)] and
lexical hit [(2,0)] with alpha 1/2 normalizes over the score pool
so (1,0) gets norm 1 and lexical 0 and (2,0) gets norm 0 and
lexical 1, both tie at hybrid 1/2 and the output keeps insertion
order; and in general the result is sorted descending by hybrid_score,
truncated to top_k, with ties kept in the insertion order of the merge
mapping (the sort does not reorder entries of equal score). -/
theorem c4_merge_ranking :
    (search_hybrid_core [vhA, vhB] [bm25Hit 2 "t2" "s2" "txt"] (1/2) 5 =
      [{ doc_id := 1, chunk_index := some 0, score := 1/10, text := "t1", source := "s1",
         fmt := "txt", chunk_metadata := none, vector_score := 1/10, bm25_score := 0,
         vector_score_norm := 1, hybrid_score := 1/2, citation := some "s1#chunk0" },
       { doc_id := 2, chunk_index := some 0, score := 1/2, text := "t2", source := "s2",
         fmt := "txt", chunk_metadata := none, vector_score := 1/2, bm25_score := 1,
         vector_score_norm := 0, hybrid_score := 1/2, citation := some "s2#chunk0" }]) ∧
    (∀ (v b : List RawHit) (alpha : ℚ) (k : Int),
        (search_hybrid_core v b alpha k).Pairwise
          (fun x y => y.hybrid_score ≤ x.hybrid_score)) ∧
    (∀ (v b : List RawHit) (alpha : ℚ) (k : Int), 0 ≤ k →
        (search_hybrid_core v b alpha k).length ≤ k.toNat) ∧
    (∀ (v b : List RawHit) (alpha : ℚ) (q : ℚ),
        (sortDesc (applyHybrid alpha (applyNorm (mergeHits v b)))).filter
            (fun x => decide (x.hybrid_score = q))
          = (applyHybrid alpha (applyNorm (mergeHits v b))).filter
            (fun x => decide (x.hybrid_score = q))) := by
  refine ⟨?_, ?_, ?_, ?_⟩
  · norm_num [search_hybrid_core, mergeHits, addVecHit, addBm25Hit, entryOfVector,
      entryOfBm25, hkey, applyNorm, normEntry, listMin, listMax, applyHybrid, hybridEntry,
      sortDesc, insertDesc, pySlice, citeOf, vhA, vhB, bm25Hit]
    rfl
  · intro v b alpha k
    have h1 := sortDesc_pairwise (applyHybrid alpha (applyNorm (mergeHits v b)))
    have h2 := pairwise_pySlice k h1
    exact List.pairwise_map.2 (h2.imp (fun hab => hab))
  · intro v b alpha k hk
    show ((pySlice k _).map _).length ≤ k.toNat
    rw [List.length_map]
    exact length_pySlice_le k _ hk
  · intro v b alpha q
    exact filter_sortDesc q _

/-- C4 witness: the truncation clause applied at a concrete call. -/
theorem c4_witness :
    (0 : Int) ≤ 3 ∧ (search_hybrid_core [vhA] [] (1/2) 3).length ≤ (3 : Int).toNat :=
  ⟨by decide, c4_merge_ranking.2.2.1 [vhA] [] (1/2) 3 (by decide)⟩

/-- C5: the result normalizer of `search_hybrid`.  An empty entry set
performs no normalization; on a non-empty set every normalized score
lies in [0,1]; when max != min every entry gets exactly
`1 - (score - min)/(max - min)` and smaller raw distance yields a
larger (or equal) normalized score; when max == min every entry
normalizes to exactly 1. -/
theorem c5_normalizer :
    applyNorm [] = [] ∧
    ∀ m : List ScoredHit, m ≠ [] →
      (∀ e ∈ applyNorm m, 0 ≤ e.vector_score_norm ∧ e.vector_score_norm ≤ 1) ∧
      (listMax (m.map (fun v => v.vector_score)) ≠ listMin (m.map (fun v => v.vector_score)) →
        ∀ e ∈ applyNorm m,
          e.vector_score_norm =
            1 - ((e.vector_score - listMin (m.map (fun v => v.vector_score))) /
              (listMax (m.map (fun v => v.vector_score))
                - listMin (m.map (fun v => v.vector_score))))) ∧
      (listMax (m.map (fun v => v.vector_score)) = listMin (m.map (fun v => v.vector_score)) →
        ∀ e ∈ applyNorm m, e.vector_score_norm = 1) ∧
      (∀ e1 ∈ applyNorm m, ∀ e2 ∈ applyNorm m,
        e1.vector_score ≤ e2.vector_score → e2.vector_score_norm ≤ e1.vector_score_norm) := by
  constructor
  · rfl
  intro m hm
  have hsc : m.map (fun v => v.vector_score) ≠ [] := by
    simpa using hm
  have happ : applyNorm m
      = m.map (normEntry (listMin (m.map (fun v => v.vector_score)))
          (listMax (m.map (fun v => v.vector_score)))) := by
    simp only [applyNorm]
    rw [if_neg hsc]
  have hminmax : listMin (m.map (fun v => v.vector_score))
      ≤ listMax (m.map (fun v => v.vector_score)) := by
    obtain ⟨x, hx⟩ := List.exists_mem_of_ne_nil _ hm
    have hmem : x.vector_score ∈ m.map (fun v => v.vector_score) :=
      List.mem_map_of_mem _ hx
    exact le_trans (listMin_le hmem) (le_listMax hmem)
  refine ⟨?_, ?_, ?_, ?_⟩
  · intro e he
    rw [happ] at he
    obtain ⟨x, hx, rfl⟩ := List.mem_map.1 he
    have hlo : listMin (m.map (fun v => v.vector_score)) ≤ x.vector_score :=
      listMin_le (List.mem_map_of_mem _ hx)
    have hhi : x.vector_score ≤ listMax (m.map (fun v => v.vector_score)) :=
      le_listMax (List.mem_map_of_mem _ hx)
    unfold normEntry
    split
    · rename_i hne
      have hlt : listMin (m.map (fun v => v.vector_score))
          < listMax (m.map (fun v => v.vector_score)) :=
        lt_of_le_of_ne hminmax (fun h => hne h.symm)
      have hD : (0:ℚ) < listMax (m.map (fun v => v.vector_score))
          - listMin (m.map (fun v => v.vector_score)) := sub_pos.2 hlt
      have hr0 : (0:ℚ) ≤ (x.vector_score - listMin (m.map (fun v => v.vector_score)))
          / (listMax (m.map (fun v => v.vector_score))
            - listMin (m.map (fun v => v.vector_score))) :=
        div_nonneg (sub_nonneg.2 hlo) (le_of_lt hD)
      have hr1 : (x.vector_score - listMin (m.map (fun v => v.vector_score)))
          / (listMax (m.map (fun v => v.vector_score))
            - listMin (m.map (fun v => v.vector_score))) ≤ 1 :=
        (div_le_one hD).2 (by linarith)
      constructor
      · show (0:ℚ) ≤ 1 - _
        linarith
      · show (1:ℚ) - _ ≤ 1
        linarith
    · exact ⟨by norm_num, le_refl 1⟩
  · intro hne e he
    rw [happ] at he
    obtain ⟨x, hx, rfl⟩ := List.mem_map.1 he
    unfold normEntry
    rw [if_pos hne]
  · intro heq e he
    rw [happ] at he
    obtain ⟨x, hx, rfl⟩ := List.mem_map.1 he
    unfold normEntry
    rw [if_neg (by simp [heq])]
  · intro e1 h1 e2 h2 hle
    rw [happ] at h1 h2
    obtain ⟨x1, hx1, rfl⟩ := List.mem_map.1 h1
    obtain ⟨x2, hx2, rfl⟩ := List.mem_map.1 h2
    by_cases hne : listMax (m.map (fun v => v.vector_score))
        ≠ listMin (m.map (fun v => v.vector_score))
    · have hlt : listMin (m.map (fun v => v.vector_score))
          < listMax (m.map (fun v => v.vector_score)) :=
        lt_of_le_of_ne hminmax (fun h => hne h.symm)
      have hD : (0:ℚ) < listMax (m.map (fun v => v.vector_score))
          - listMin (m.map (fun v => v.vector_score)) := sub_pos.2 hlt
      have hle' : x1.vector_score ≤ x2.vector_score := by
        simpa [normEntry, apply_ite (fun e : ScoredHit => e.vector_score)] using hle
      unfold normEntry
      rw [if_pos hne, if_pos hne]
      show (1:ℚ) - _ ≤ 1 - _
      have hdiv : (x1.vector_score - listMin (m.map (fun v => v.vector_score)))
          / (listMax (m.map (fun v => v.vector_score))
            - listMin (m.map (fun v => v.vector_score)))
          ≤ (x2.vector_score - listMin (m.map (fun v => v.vector_score)))
          / (listMax (m.map (fun v => v.vector_score))
            - listMin (m.map (fun v => v.vector_score))) :=
        (div_le_div_iff_of_pos_right hD).2 (by linarith)
      linarith
    · unfold normEntry
      rw [if_neg hne, if_neg hne]

/-- C5 witness: the bounds clause applied at a concrete one-entry
mapping. -/
theorem c5_witness :
    ([entryOfVector vhA] ≠ ([] : List ScoredHit)) ∧
    (∀ e ∈ applyNorm [entryOfVector vhA],
        0 ≤ e.vector_score_norm ∧ e.vector_score_norm ≤ 1) :=
  ⟨by simp, (c5_normalizer.2 [entryOfVector vhA] (by simp)).1⟩

/-- C6: `_cosine_distance` under exact arithmetic.  For every vector of
positive magnitude the self-distance is 0; whenever either argument has
zero magnitude (which subsumes the empty vector, whose magnitude sum is
empty) the result is exactly 1; and the result always lies in [0,2]
(by the Cauchy-Schwarz inequality on the common prefix).  The
embedding is a total function: no input raises. -/
theorem c6_cosine_distance :
    (∀ v : List ℝ,
        0 < (∑ i ∈ Finset.range v.length, v.getD i 0 * v.getD i 0) →
        cosine_distance v v = 0) ∧
    (∀ a b : List ℝ,
        ((∑ i ∈ Finset.range a.length, a.getD i 0 * a.getD i 0) = 0 ∨
            (∑ i ∈ Finset.range b.length, b.getD i 0 * b.getD i 0) = 0) →
        cosine_distance a b = 1) ∧
    (∀ a b : List ℝ, 0 ≤ cosine_distance a b ∧ cosine_distance a b ≤ 2) := by
  refine ⟨?_, ?_, ?_⟩
  · intro v hv
    have hvne : ¬(v = [] ∨ v = []) := by
      rintro (rfl | rfl) <;> simp at hv
    simp only [cosine_distance, Nat.min_self]
    rw [if_neg hvne, if_neg (by rw [or_self]; exact not_le.2 hv)]
    rw [Real.mul_self_sqrt (le_of_lt hv), div_self (ne_of_gt hv)]
    ring
  · intro a b h
    by_cases hab : a = [] ∨ b = []
    · simp only [cosine_distance]
      rw [if_pos hab]
    · simp only [cosine_distance]
      rw [if_neg hab, if_pos ?_]
      rcases h with h0 | h0
      · left
        have hsub : ∑ i ∈ Finset.range (min a.length b.length), a.getD i 0 * a.getD i 0
            ≤ ∑ i ∈ Finset.range a.length, a.getD i 0 * a.getD i 0 :=
          Finset.sum_le_sum_of_subset_of_nonneg
            (Finset.range_subset.2 (min_le_left _ _))
            (fun i _ _ => mul_self_nonneg _)
        exact hsub.trans_eq h0
      · right
        have hsub : ∑ i ∈ Finset.range (min a.length b.length), b.getD i 0 * b.getD i 0
            ≤ ∑ i ∈ Finset.range b.length, b.getD i 0 * b.getD i 0 :=
          Finset.sum_le_sum_of_subset_of_nonneg
            (Finset.range_subset.2 (min_le_right _ _))
            (fun i _ _ => mul_self_nonneg _)
        exact hsub.trans_eq h0
  · intro a b
    by_cases hab : a = [] ∨ b = []
    · simp only [cosine_distance]
      rw [if_pos hab]
      norm_num
    · simp only [cosine_distance]
      rw [if_neg hab]
      by_cases hcond :
          (∑ i ∈ Finset.range (min a.length b.length), a.getD i 0 * a.getD i 0) ≤ 0 ∨
          (∑ i ∈ Finset.range (min a.length b.length), b.getD i 0 * b.getD i 0) ≤ 0
      · rw [if_pos hcond]
        norm_num
      · rw [if_neg hcond]
        push_neg at hcond
        obtain ⟨h1, h2⟩ := hcond
        have hcs : (∑ i ∈ Finset.range (min a.length b.length), a.getD i 0 * b.getD i 0) ^ 2
            ≤ (∑ i ∈ Finset.range (min a.length b.length), a.getD i 0 * a.getD i 0) *
              (∑ i ∈ Finset.range (min a.length b.length), b.getD i 0 * b.getD i 0) := by
          have := Finset.sum_mul_sq_le_sq_mul_sq (Finset.range (min a.length b.length))
            (fun i => a.getD i 0) (fun i => b.getD i 0)
          simpa [pow_two] using this
        set dot := ∑ i ∈ Finset.range (min a.length b.length), a.getD i 0 * b.getD i 0
        set na := ∑ i ∈ Finset.range (min a.length b.length), a.getD i 0 * a.getD i 0
        set nb := ∑ i ∈ Finset.range (min a.length b.length), b.getD i 0 * b.getD i 0
        have hD : 0 < Real.sqrt na * Real.sqrt nb :=
          mul_pos (Real.sqrt_pos.2 h1) (Real.sqrt_pos.2 h2)
        have habs : |dot| ≤ Real.sqrt na * Real.sqrt nb := by
          have h' := Real.sqrt_le_sqrt hcs
          rw [Real.sqrt_sq_eq_abs, Real.sqrt_mul (le_of_lt h1)] at h'
          exact h'
        have hup : dot / (Real.sqrt na * Real.sqrt nb) ≤ 1 :=
          (div_le_one hD).2 (le_trans (le_abs_self dot) habs)
        have hlo : -1 ≤ dot / (Real.sqrt na * Real.sqrt nb) := by
          rw [le_div_iff₀ hD]
          have hneg : -(Real.sqrt na * Real.sqrt nb) ≤ dot :=
            le_trans (neg_le_neg habs) (neg_abs_le dot)
          linarith
        constructor <;> linarith

/-- C6 witness: the self-distance and zero-magnitude clauses applied at
concrete one-component vectors. -/
theorem c6_cosine_distance_witness :
    ((0:ℝ) < ∑ i ∈ Finset.range ([(1:ℝ)]).length, ([(1:ℝ)]).getD i 0 * ([(1:ℝ)]).getD i 0) ∧
    cosine_distance [(1:ℝ)] [(1:ℝ)] = 0 ∧
    ((∑ i ∈ Finset.range ([(0:ℝ)]).length, ([(0:ℝ)]).getD i 0 * ([(0:ℝ)]).getD i 0) = 0) ∧
    cosine_distance [(0:ℝ)] [(1:ℝ)] = 1 := by
  have hpos : (0:ℝ)
      < ∑ i ∈ Finset.range ([(1:ℝ)]).length, ([(1:ℝ)]).getD i 0 * ([(1:ℝ)]).getD i 0 := by
    simp
  have hzero :
      (∑ i ∈ Finset.range ([(0:ℝ)]).length, ([(0:ℝ)]).getD i 0 * ([(0:ℝ)]).getD i 0) = 0 := by
    simp
  exact ⟨hpos, c6_cosine_distance.1 [(1:ℝ)] hpos, hzero,
    c6_cosine_distance.2.1 [(0:ℝ)] [(1:ℝ)] (Or.inl hzero)⟩

/-- C10: for every pair of vectors, `_cosine_distance` computes its
result over only the first min(len(a), len(b)) components of each
argument — the distance equals the distance of the two prefixes
truncated to the common length, and the (total) function returns a
value for unequal lengths instead of reporting a mismatch. -/
theorem c10_silent_truncation (a b : List ℝ) :
    cosine_distance a b
      = cosine_distance (a.take (min a.length b.length)) (b.take (min a.length b.length)) := by
  by_cases hab : a = [] ∨ b = []
  · rcases hab with rfl | rfl <;> simp [cosine_distance]
  · push_neg at hab
    obtain ⟨ha, hb⟩ := hab
    set n := min a.length b.length with hn
    have hla : 0 < a.length := List.length_pos.2 ha
    have hlb : 0 < b.length := List.length_pos.2 hb
    have hnpos : 0 < n := lt_min hla hlb
    have hta : (a.take n).length = n := by
      rw [List.length_take]
      exact Nat.min_eq_left (min_le_left _ _)
    have htb : (b.take n).length = n := by
      rw [List.length_take]
      exact Nat.min_eq_left (min_le_right _ _)
    have htane : a.take n ≠ [] := by
      rw [← List.length_pos, hta]
      exact hnpos
    have htbne : b.take n ≠ [] := by
      rw [← List.length_pos, htb]
      exact hnpos
    have hmin' : min (a.take n).length (b.take n).length = n := by
      rw [hta, htb, Nat.min_self]
    have hgA : ∀ i, i < n → (a.take n).getD i 0 = a.getD i 0 := by
      intro i hi
      simp [List.getD_eq_getElem?_getD, List.getElem?_take_of_lt hi]
    have hgB : ∀ i, i < n → (b.take n).getD i 0 = b.getD i 0 := by
      intro i hi
      simp [List.getD_eq_getElem?_getD, List.getElem?_take_of_lt hi]
    have hsA : ∑ i ∈ Finset.range n, (a.take n).getD i 0 * (a.take n).getD i 0
        = ∑ i ∈ Finset.range n, a.getD i 0 * a.getD i 0 :=
      Finset.sum_congr rfl (fun i hi => by rw [hgA i (Finset.mem_range.1 hi)])
    have hsB : ∑ i ∈ Finset.range n, (b.take n).getD i 0 * (b.take n).getD i 0
        = ∑ i ∈ Finset.range n, b.getD i 0 * b.getD i 0 :=
      Finset.sum_congr rfl (fun i hi => by rw [hgB i (Finset.mem_range.1 hi)])
    have hsDot : ∑ i ∈ Finset.range n, (a.take n).getD i 0 * (b.take n).getD i 0
        = ∑ i ∈ Finset.range n, a.getD i 0 * b.getD i 0 :=
      Finset.sum_congr rfl (fun i hi => by
        rw [hgA i (Finset.mem_range.1 hi), hgB i (Finset.mem_range.1 hi)])
    simp only [cosine_distance]
    rw [if_neg (show ¬(a = [] ∨ b = []) from by rintro (h | h); exacts [ha h, hb h])]
    rw [if_neg (show ¬(a.take n = [] ∨ b.take n = []) from by
      rintro (h | h); exacts [htane h, htbne h])]
    rw [hmin', hsA, hsB, hsDot]
